import Mathlib

/-!
Verification of the CSCE-477-Team9 encryption benchmarking harness.

The development shallowly embeds the two source files:
- the benchmarking client (`src/client.js`): cipher wrappers, the HTTP
  helper `makeRequest`, the `benchmark` driver and its inline statistics;
- the storage peer (`src/unnamed/part_000`): an express server with an
  in-memory append-only array, `POST /store` and `GET /strings/:id`.

JavaScript numbers are modelled as exact rationals extended with the
special values NaN, +Infinity and -Infinity (`JsNum`); byte sequences as
`List (Fin 256)`; fallible operations return `Option` / `Except`.
The cryptographic primitives themselves (Node's `crypto` module) are not
part of the repository; they are modelled from the spec as ideal ciphers,
clearly marked below.
-/

/-- A byte, as produced by Buffer operations in the client. -/
abbrev Byte := Fin 256

/-! ## JavaScript number semantics for the statistics code

`benchmark` (client.js lines 200-204) computes average, min, max and
median with plain JS arithmetic.  `JsNum` models the values that can
arise there: ordinary (exact) numbers plus NaN and the two infinities. -/

/-- A JavaScript number value: NaN, +Infinity, -Infinity, or a finite
number (modelled as an exact rational). -/
inductive JsNum where
  | nan : JsNum
  | posInf : JsNum
  | negInf : JsNum
  | num : ℚ → JsNum
deriving DecidableEq, Repr

/-- JS division `a / b` restricted to the values the statistics code can
produce: `0 / 0` is NaN, `x / 0` with `x ≠ 0` is a signed infinity,
otherwise exact division. -/
def jsDiv : JsNum → JsNum → JsNum
  | JsNum.nan, _ => JsNum.nan
  | _, JsNum.nan => JsNum.nan
  | JsNum.num a, JsNum.num b =>
    if b = 0 then
      if a = 0 then JsNum.nan
      else if 0 < a then JsNum.posInf else JsNum.negInf
    else JsNum.num (a / b)
  | JsNum.posInf, JsNum.num _ => JsNum.posInf
  | JsNum.negInf, JsNum.num _ => JsNum.negInf
  | _, JsNum.posInf => JsNum.num 0
  | _, JsNum.negInf => JsNum.num 0

/-- Binary `Math.min`: NaN propagates, otherwise the smaller value. -/
def jsMin2 : JsNum → JsNum → JsNum
  | JsNum.nan, _ => JsNum.nan
  | _, JsNum.nan => JsNum.nan
  | JsNum.posInf, b => b
  | a, JsNum.posInf => a
  | JsNum.negInf, _ => JsNum.negInf
  | _, JsNum.negInf => JsNum.negInf
  | JsNum.num a, JsNum.num b => JsNum.num (min a b)

/-- Binary `Math.max`: NaN propagates, otherwise the larger value. -/
def jsMax2 : JsNum → JsNum → JsNum
  | JsNum.nan, _ => JsNum.nan
  | _, JsNum.nan => JsNum.nan
  | JsNum.negInf, b => b
  | a, JsNum.negInf => a
  | JsNum.posInf, _ => JsNum.posInf
  | _, JsNum.posInf => JsNum.posInf
  | JsNum.num a, JsNum.num b => JsNum.num (max a b)

/-- The summary object returned by `benchmark` (client.js line 212):
`{ avg, median, min, max }`.  `median` is `sorted[...]`, which is
`undefined` (here `none`) when the index is out of bounds. -/
structure BenchmarkSummary where
  avg : JsNum
  median : Option ℚ
  min : JsNum
  max : JsNum
deriving DecidableEq, Repr

/-- The statistics block of `benchmark` (client.js lines 199-212), as a
standalone function of the collected duration list:
`avg = times.reduce((a,b) => a+b, 0) / times.length`,
`min = Math.min(...times)` (which is `+Infinity` on no arguments),
`max = Math.max(...times)` (`-Infinity` on no arguments),
`sorted = times.sort((a,b) => a-b)`, `median = sorted[floor(len/2)]`. -/
def summarize (times : List ℚ) : BenchmarkSummary :=
  let avg := jsDiv (JsNum.num (times.foldl (· + ·) 0)) (JsNum.num times.length)
  let mn := (times.map JsNum.num).foldl jsMin2 JsNum.posInf
  let mx := (times.map JsNum.num).foldl jsMax2 JsNum.negInf
  let sorted := times.insertionSort (· ≤ ·)
  ⟨avg, sorted.get? (sorted.length / 2), mn, mx⟩

/-! ## The storage peer (src/unnamed/part_000)

An express server holding `const strings = []`; `POST /store` rejects a
falsy `text` field with status 400 and otherwise appends
`{ id: strings.length, text, timestamp }`; `GET /strings/:id` indexes the
array and answers 404 when the entry is absent. -/

/-- One record of the in-memory store: `{ id, text, timestamp }`
(part_000 line 20).  The timestamp (`new Date()`) is modelled as an
opaque natural number supplied by the environment. -/
structure StoredString where
  id : Nat
  text : String
  timestamp : Nat
deriving DecidableEq, Repr

/-- The peer's state: the `strings` array. -/
abbrev ServerState := List StoredString

/-- A JSON body the peer can send (part_000 lines 16, 22-26, 31, 40, 43). -/
inductive ServerBody where
  | errorBody : String → ServerBody
  | storeOk : String → Nat → String → ServerBody
  | record : Nat → String → Nat → ServerBody
  | listing : Nat → List StoredString → ServerBody
deriving DecidableEq, Repr

/-- An HTTP reply: status code plus JSON body. -/
structure HttpReply where
  status : Nat
  body : ServerBody
deriving DecidableEq, Repr

/-- `app.post('/store')` (part_000 lines 12-27).  The request's `text`
field is `none` when missing; `if (!text)` rejects both a missing field
and the empty string (both are falsy) with 400 and leaves the state
unchanged; otherwise the record is appended with `id = strings.length`. -/
def storePost (st : ServerState) (text : Option String) (ts : Nat) :
    ServerState × HttpReply :=
  match text with
  | none => (st, ⟨400, ServerBody.errorBody "Text field is required"⟩)
  | some t =>
    if t = "" then (st, ⟨400, ServerBody.errorBody "Text field is required"⟩)
    else
      (st ++ [⟨st.length, t, ts⟩],
       ⟨201, ServerBody.storeOk "String stored successfully" st.length t⟩)

/-- `app.get('/strings/:id')` (part_000 lines 35-44).  The path parameter
goes through `parseInt`; a non-numeric parameter (`none` here) yields NaN
and so an absent entry.  `strings[id]` missing answers 404, otherwise the
whole record is returned. -/
def serverGet (st : ServerState) (idParam : Option Nat) : HttpReply :=
  match idParam with
  | none => ⟨404, ServerBody.errorBody "String not found"⟩
  | some i =>
    match st.get? i with
    | none => ⟨404, ServerBody.errorBody "String not found"⟩
    | some r => ⟨200, ServerBody.record r.id r.text r.timestamp⟩

/-- `app.get('/strings')` (part_000 lines 30-32). -/
def serverListAll (st : ServerState) : HttpReply :=
  ⟨200, ServerBody.listing st.length st⟩

/-! ## The transport helper (client.js lines 5-43)

`makeRequest` resolves with the parsed response body for every HTTP
response, regardless of status, and rejects only when the request object
emits an error (a connection failure).  It never retries. -/

/-- The outcome of one HTTP exchange as seen by the client: either the
socket-level failure delivered to `req.on('error')`, or a response with
a status code and a (parsed) body. -/
inductive NetOutcome where
  | connFailure : NetOutcome
  | response : Nat → ServerBody → NetOutcome
deriving DecidableEq, Repr

/-- The only way `makeRequest`'s promise can reject. -/
inductive ClientError where
  | connError : ClientError
deriving DecidableEq, Repr

/-- `makeRequest(method, path, data)` (client.js lines 5-43): the promise
rejects exactly on a connection failure and otherwise resolves with the
parsed body of whatever response arrived — the status code is never
inspected.  Method, path and request data do not influence the result. -/
def makeRequest (_method : String) (_path : String) (_data : Option String)
    (net : NetOutcome) : Except ClientError ServerBody :=
  match net with
  | NetOutcome.connFailure => Except.error ClientError.connError
  | NetOutcome.response _ body => Except.ok body

/-- The client's store call (`makeRequest('POST', '/store', {text})`,
client.js line 178) composed with the in-memory peer's handler. -/
def clientStore (st : ServerState) (text : Option String) (ts : Nat) :
    ServerState × Except ClientError ServerBody :=
  let res := storePost st text ts
  (res.1, makeRequest "POST" "/store" text (NetOutcome.response res.2.status res.2.body))

/-- The client's retrieve call (`makeRequest('GET', '/strings/' + id)`,
client.js line 182) composed with the in-memory peer's handler. -/
def clientRetrieve (st : ServerState) (idParam : Option Nat) :
    Except ClientError ServerBody :=
  let reply := serverGet st idParam
  makeRequest "GET" "/strings/:id" none (NetOutcome.response reply.status reply.body)

/-! ## Symmetric ciphers (client.js lines 46-112)

`encryptAES`/`decryptAES` wrap Node's `aes-256-gcm`, and
`encryptChaCha20`/`decryptChaCha20` wrap `chacha20-poly1305`; both keys
are 32 bytes, the nonce is 16 bytes for AES-GCM and 12 for ChaCha20, with
a 16-byte authentication tag checked on decrypt.  The cipher cores are
library calls, not repository code, so they are modelled from the spec as
an ideal authenticated stream cipher: a keystream byte-addition layer for
confidentiality plus a tag over (scheme, key, nonce, ciphertext) built
from a polynomial hash that provably detects every single-byte change. -/

/-- The errors the cipher layer can raise, from the spec's taxonomy. -/
inductive CryptoError where
  | invalidKeyMaterial : CryptoError
  | authenticationFailure : CryptoError
  | decryptionFailure : CryptoError
deriving DecidableEq, Repr

/-- A symmetric envelope as built at client.js lines 55-59 and 90-94:
ciphertext, nonce and authentication tag (hex transport encoding elided,
kept at the byte level). -/
structure SymEnvelope where
  encrypted : List Byte
  iv : List Byte
  authTag : List Byte
deriving DecidableEq, Repr

/-- Sum of the byte values of a list. -/
def byteSum (l : List Byte) : Nat := (l.map Fin.val).sum

/-- Modelled from the spec: the keystream of the ideal stream cipher
standing in for the AES-GCM / ChaCha20 cores (Node library code absent
from src); it depends on the scheme, the key, the nonce and the byte
position. -/
def keystream (scheme : Nat) (key nonce : List Byte) (i : Nat) : Byte :=
  ⟨(byteSum key + 3 * byteSum nonce + 11 * scheme + 7 * i) % 256,
   Nat.mod_lt _ (by norm_num)⟩

/-- Encrypt a byte list under a keystream, starting at position `i`. -/
def streamEnc (ks : Nat → Byte) : Nat → List Byte → List Byte
  | _, [] => []
  | i, b :: rest => (b + ks i) :: streamEnc ks (i + 1) rest

/-- Decrypt a byte list under a keystream, starting at position `i`. -/
def streamDec (ks : Nat → Byte) : Nat → List Byte → List Byte
  | _, [] => []
  | i, c :: rest => (c - ks i) :: streamDec ks (i + 1) rest

/-- The modulus of the authentication hash (a prime above any byte
value, so single-byte differences are visible). -/
def macMod : Nat := 65521

instance : Fact (Nat.Prime macMod) := ⟨by unfold macMod; norm_num⟩

/-- Modelled from the spec: polynomial hash over the ciphertext bytes,
the accumulator of the ideal authentication tag.  A change of any single
byte provably changes the value. -/
def polyHash : List Byte → ZMod macMod
  | [] => 0
  | b :: rest => ((b.val : ZMod macMod) + 1) + 257 * polyHash rest

/-- Modelled from the spec: the authentication value over scheme, key,
nonce and ciphertext. -/
def macVal (scheme : Nat) (key nonce ct : List Byte) : ZMod macMod :=
  polyHash ct + 1009 * (byteSum key : ZMod macMod) +
    2003 * (byteSum nonce : ZMod macMod) + 4001 * (scheme : ZMod macMod)

/-- Serialize an authentication value to the scheme's 16 tag bytes
(little-endian base-256 digits, zero-padded). -/
def tagBytes (m : ZMod macMod) : List Byte :=
  List.ofFn fun i : Fin 16 =>
    (⟨(m.val / 256 ^ i.val) % 256, Nat.mod_lt _ (by norm_num)⟩ : Byte)

/-- Modelled from the spec: the shared authenticated-encryption core of
the two symmetric wrappers (`crypto.createCipheriv` + `getAuthTag`).  A
wrongly sized key or nonce is rejected (the library throws on
construction); otherwise the plaintext is enciphered under the keystream
and tagged. -/
def aeadEncrypt (scheme nonceLen : Nat) (key nonce pt : List Byte) :
    Except CryptoError SymEnvelope :=
  if key.length = 32 ∧ nonce.length = nonceLen then
    let ct := streamEnc (keystream scheme key nonce) 0 pt
    Except.ok ⟨ct, nonce, tagBytes (macVal scheme key nonce ct)⟩
  else Except.error CryptoError.invalidKeyMaterial

/-- Modelled from the spec: the shared authenticated-decryption core
(`crypto.createDecipheriv` + `setAuthTag`; `decipher.final` throws when
the tag does not match).  The tag is recomputed over the received nonce
and ciphertext and compared with the envelope's tag; only on a match is
the plaintext returned. -/
def aeadDecrypt (scheme nonceLen : Nat) (key : List Byte) (env : SymEnvelope) :
    Except CryptoError (List Byte) :=
  if key.length = 32 ∧ env.iv.length = nonceLen then
    if env.authTag = tagBytes (macVal scheme key env.iv env.encrypted) then
      Except.ok (streamDec (keystream scheme key env.iv) 0 env.encrypted)
    else Except.error CryptoError.authenticationFailure
  else Except.error CryptoError.invalidKeyMaterial

/-- `encryptAES` (client.js lines 46-60): AES-256-GCM with a 16-byte
nonce.  The random nonce (`crypto.randomBytes(16)`) is passed explicitly
as the `nonce` argument. -/
def encryptAES (key nonce pt : List Byte) : Except CryptoError SymEnvelope :=
  aeadEncrypt 0 16 key nonce pt

/-- `decryptAES` (client.js lines 63-76). -/
def decryptAES (key : List Byte) (env : SymEnvelope) : Except CryptoError (List Byte) :=
  aeadDecrypt 0 16 key env

/-- `encryptChaCha20` (client.js lines 79-95): ChaCha20-Poly1305 with a
12-byte nonce and a 16-byte tag. -/
def encryptChaCha20 (key nonce pt : List Byte) : Except CryptoError SymEnvelope :=
  aeadEncrypt 1 12 key nonce pt

/-- `decryptChaCha20` (client.js lines 98-112). -/
def decryptChaCha20 (key : List Byte) (env : SymEnvelope) : Except CryptoError (List Byte) :=
  aeadDecrypt 1 12 key env

/-! ## The asymmetric scheme (client.js lines 115-158)

`encryptRSA` splits the plaintext buffer into slices of at most 190
bytes (`maxChunkSize`, the OAEP-SHA256 capacity of a 2048-bit key) and
encrypts each with `crypto.publicEncrypt`; `decryptRSA` decrypts each
chunk with `crypto.privateDecrypt` and concatenates the results.  The
RSA-OAEP block primitive is a library call, modelled from the spec as an
ideal keyed block operation that accepts blocks up to the capacity. -/

/-- `const maxChunkSize = 190` (client.js line 117): the per-block OAEP
capacity, 256 key bytes minus the SHA-256 OAEP overhead. -/
def maxChunkSize : Nat := 190

/-- Modelled from the spec: one RSA-OAEP ciphertext block, remembering
which key pair produced it (the pair is identified by a natural). -/
structure RsaBlock where
  keyId : Nat
  blockData : List Byte
deriving DecidableEq, Repr

/-- Modelled from the spec: `crypto.publicEncrypt` with OAEP-SHA256 — an
ideal block encryption that accepts plaintext blocks up to the capacity
and fails (the library throws) beyond it. -/
def publicEncrypt (pubKeyId : Nat) (block : List Byte) : Option RsaBlock :=
  if block.length ≤ maxChunkSize then some ⟨pubKeyId, block⟩ else none

/-- Modelled from the spec: `crypto.privateDecrypt` with OAEP-SHA256 —
unpadding succeeds exactly under the matching private key. -/
def privateDecrypt (privKeyId : Nat) (c : RsaBlock) : Option (List Byte) :=
  if c.keyId = privKeyId then some c.blockData else none

/-- The asymmetric envelope (client.js lines 133-136): the ordered chunk
list plus the chunk count. -/
structure RsaEnvelope where
  encrypted : List RsaBlock
  chunkCount : Nat
deriving DecidableEq, Repr

/-- The chunking loop of `encryptRSA` (client.js lines 120-131):
`for (let i = 0; i < textBuffer.length; i += maxChunkSize)` taking
`slice(i, i + maxChunkSize)`. -/
def rsaChunks (bs : List Byte) : List (List Byte) :=
  if h : bs = [] then []
  else bs.take maxChunkSize :: rsaChunks (bs.drop maxChunkSize)
termination_by bs.length
decreasing_by
  simp only [List.length_drop]
  have hpos : 0 < bs.length := List.length_pos.mpr h
  simp only [maxChunkSize]
  omega

/-- Encrypt each chunk in order, failing if any block is oversized. -/
def encryptChunkList (pubKeyId : Nat) : List (List Byte) → Option (List RsaBlock)
  | [] => some []
  | c :: rest =>
    match publicEncrypt pubKeyId c, encryptChunkList pubKeyId rest with
    | some e, some es => some (e :: es)
    | _, _ => none

/-- `encryptRSA` (client.js lines 115-137): chunk, encrypt each chunk,
return the chunk list with its count. -/
def encryptRSA (pubKeyId : Nat) (pt : List Byte) : Option RsaEnvelope :=
  (encryptChunkList pubKeyId (rsaChunks pt)).map fun cs => ⟨cs, cs.length⟩

/-- Decrypt each chunk in order, failing if any block fails. -/
def decryptChunkList (privKeyId : Nat) : List RsaBlock → Option (List (List Byte))
  | [] => some []
  | c :: rest =>
    match privateDecrypt privKeyId c, decryptChunkList privKeyId rest with
    | some d, some ds => some (d :: ds)
    | _, _ => none

/-- `decryptRSA` (client.js lines 140-158): decrypt every chunk and
concatenate (`Buffer.concat`) in original order. -/
def decryptRSA (privKeyId : Nat) (env : RsaEnvelope) : Option (List Byte) :=
  (decryptChunkList privKeyId env.encrypted).map fun ds => ds.flatten

/-! ## The benchmark driver (client.js lines 161-213)

`benchmark(label, encryptFn, decryptFn, key, text, iterations = 100)`
runs `iterations` strictly sequential round trips, each one: optionally
encrypt and `JSON.stringify` the envelope, `POST /store` the payload,
`GET /strings/:id` with the returned id, optionally `JSON.parse` and
decrypt the retrieved text and compare with the original, then push the
elapsed duration.  The envelope type, its serialization
(`JSON.stringify`) and parsing (`JSON.parse`, which throws on bad input,
modelled as `Option`) are parameters, exactly as `encryptFn`/`decryptFn`
are parameters in the source.  Wall-clock durations come from an
environment-supplied clock `timeOf`, one reading per iteration. -/

/-- One loop body of `benchmark` (client.js lines 167-196) against the
in-memory peer, returning the updated peer state and the captured
`storeResponse.id` (which is `none`/undefined when the store reply had
no `id` field).  `none` overall models a thrown exception: a failed
`JSON.parse` of an undefined or non-envelope text, a failing decrypt, or
the `Decryption failed - data mismatch!` verification error.  When no
`decryptFn` is given, the retrieved reply is never inspected, exactly as
in the source. -/
def benchIter {Env : Type} (encryptFn : Option (String → Env))
    (decryptFn : Option (Env → Option String)) (stringifyEnv : Env → String)
    (parseEnv : String → Option Env) (text : String) (iterIdx : Nat)
    (st : ServerState) : Option (ServerState × Option Nat) :=
  let dataToSend := match encryptFn with
    | some f => stringifyEnv (f text)
    | none => text
  let stored := clientStore st (some dataToSend) iterIdx
  let st2 := stored.1
  let idOpt : Option Nat := match stored.2 with
    | Except.ok (ServerBody.storeOk _ id _) => some id
    | _ => none
  let getResponse := clientRetrieve st2 idOpt
  match decryptFn with
  | none => some (st2, idOpt)
  | some g =>
    match getResponse with
    | Except.ok (ServerBody.record _ rtext _) =>
      match parseEnv rtext with
      | some env =>
        match g env with
        | some decrypted => if decrypted = text then some (st2, idOpt) else none
        | none => none
      | none => none
    | _ => none

/-- The iteration loop of `benchmark` (client.js lines 165-197):
`iterations` strictly sequential round trips, threading the peer state,
collecting one duration per iteration (and, for the analysis, the
captured identifiers).  A thrown iteration aborts the whole run. -/
def runBenchmark {Env : Type} (encryptFn : Option (String → Env))
    (decryptFn : Option (Env → Option String)) (stringifyEnv : Env → String)
    (parseEnv : String → Option Env) (text : String) (timeOf : Nat → ℚ) :
    Nat → Nat → ServerState → Option (ServerState × List ℚ × List (Option Nat))
  | 0, _, st => some (st, [], [])
  | n + 1, i, st =>
    match benchIter encryptFn decryptFn stringifyEnv parseEnv text i st with
    | none => none
    | some (st2, id) =>
      match runBenchmark encryptFn decryptFn stringifyEnv parseEnv text timeOf n (i + 1) st2 with
      | none => none
      | some (stf, times, ids) => some (stf, timeOf i :: times, id :: ids)

/-- The default of the `iterations` parameter (client.js line 161). -/
def defaultIterations : Nat := 100

/-- `benchmark` itself: an explicit iteration count, or the default of
100 when none is given, starting at iteration 0. -/
def benchmark {Env : Type} (encryptFn : Option (String → Env))
    (decryptFn : Option (Env → Option String)) (stringifyEnv : Env → String)
    (parseEnv : String → Option Env) (text : String) (timeOf : Nat → ℚ)
    (iterations : Option Nat) (st : ServerState) :
    Option (ServerState × List ℚ × List (Option Nat)) :=
  runBenchmark encryptFn decryptFn stringifyEnv parseEnv text timeOf
    (iterations.getD defaultIterations) 0 st

/-! ## Decidable equality on `Except`, used to evaluate concrete cipher
results. -/

instance {e a : Type} [DecidableEq e] [DecidableEq a] : DecidableEq (Except e a) := fun x y =>
  match x, y with
  | Except.ok v, Except.ok w =>
    if h : v = w then isTrue (by rw [h]) else isFalse (by intro hc; injection hc; contradiction)
  | Except.error v, Except.error w =>
    if h : v = w then isTrue (by rw [h]) else isFalse (by intro hc; injection hc; contradiction)
  | Except.ok _, Except.error _ => isFalse (by intro hc; injection hc)
  | Except.error _, Except.ok _ => isFalse (by intro hc; injection hc)

/-! ## Statistics lemmas -/

/-- `reduce((a,b) => a+b, init)` computes `init` plus the sum. -/
lemma foldl_add_eq_sum (l : List ℚ) (a : ℚ) : l.foldl (· + ·) a = a + l.sum := by
  induction l generalizing a with
  | nil => simp
  | cons x xs ih => simp [List.foldl_cons, ih (a + x), List.sum_cons]; ring

/-- Folding `jsMin2` from a finite number stays finite and computes the
rational `min`-fold. -/
lemma foldl_jsMin2_num (l : List ℚ) (q : ℚ) :
    (l.map JsNum.num).foldl jsMin2 (JsNum.num q) = JsNum.num (l.foldl min q) := by
  induction l generalizing q with
  | nil => rfl
  | cons x xs ih => simpa [jsMin2] using ih (min q x)

/-- Folding `jsMax2` from a finite number stays finite and computes the
rational `max`-fold. -/
lemma foldl_jsMax2_num (l : List ℚ) (q : ℚ) :
    (l.map JsNum.num).foldl jsMax2 (JsNum.num q) = JsNum.num (l.foldl max q) := by
  induction l generalizing q with
  | nil => rfl
  | cons x xs ih => simpa [jsMax2] using ih (max q x)

/-- The `min`-fold lands on its seed or on a list element. -/
lemma foldl_min_mem (l : List ℚ) (q : ℚ) : l.foldl min q = q ∨ l.foldl min q ∈ l := by
  induction l generalizing q with
  | nil => exact Or.inl rfl
  | cons x xs ih =>
    rcases ih (min q x) with h | h
    · rcases min_choice q x with hm | hm
      · exact Or.inl (by rw [List.foldl_cons, h, hm])
      · exact Or.inr (by rw [List.foldl_cons, h, hm]; exact List.mem_cons_self x xs)
    · exact Or.inr (List.mem_cons_of_mem x h)

/-- The `min`-fold is below its seed and below every list element. -/
lemma foldl_min_le (l : List ℚ) (q : ℚ) :
    l.foldl min q ≤ q ∧ ∀ x ∈ l, l.foldl min q ≤ x := by
  induction l generalizing q with
  | nil => exact ⟨le_refl q, by intro x hx; cases hx⟩
  | cons y ys ih =>
    obtain ⟨h1, h2⟩ := ih (min q y)
    simp only [List.foldl_cons]
    refine ⟨h1.trans (min_le_left q y), ?_⟩
    intro x hx
    rcases List.mem_cons.mp hx with rfl | hx
    · exact h1.trans (min_le_right q x)
    · exact h2 x hx

/-- The `max`-fold lands on its seed or on a list element. -/
lemma foldl_max_mem (l : List ℚ) (q : ℚ) : l.foldl max q = q ∨ l.foldl max q ∈ l := by
  induction l generalizing q with
  | nil => exact Or.inl rfl
  | cons x xs ih =>
    rcases ih (max q x) with h | h
    · rcases max_choice q x with hm | hm
      · exact Or.inl (by rw [List.foldl_cons, h, hm])
      · exact Or.inr (by rw [List.foldl_cons, h, hm]; exact List.mem_cons_self x xs)
    · exact Or.inr (List.mem_cons_of_mem x h)

/-- The `max`-fold is above its seed and above every list element. -/
lemma foldl_max_le (l : List ℚ) (q : ℚ) :
    q ≤ l.foldl max q ∧ ∀ x ∈ l, x ≤ l.foldl max q := by
  induction l generalizing q with
  | nil => exact ⟨le_refl q, by intro x hx; cases hx⟩
  | cons y ys ih =>
    obtain ⟨h1, h2⟩ := ih (max q y)
    simp only [List.foldl_cons]
    refine ⟨(le_max_left q y).trans h1, ?_⟩
    intro x hx
    rcases List.mem_cons.mp hx with rfl | hx
    · exact (le_max_right q x).trans h1
    · exact h2 x hx

/-- The median field of `summarize` is the entry at index
`floor(length/2)` of any ascending-sorted permutation of the input. -/
lemma summarize_median_sorted (l : List ℚ) (s : List ℚ) (hp : s.Perm l)
    (hs : s.Sorted (· ≤ ·)) : (summarize l).median = s.get? (l.length / 2) := by
  have hins : s = l.insertionSort (· ≤ ·) := by
    refine List.eq_of_perm_of_sorted (hp.trans (l.perm_insertionSort (· ≤ ·)).symm) hs ?_
    exact List.sorted_insertionSort (· ≤ ·) l
  have hlen : (l.insertionSort (· ≤ ·)).length = l.length :=
    (l.perm_insertionSort (· ≤ ·)).length_eq
  simp only [summarize, hlen, hins]

/-- C8: on a non-empty duration sequence, summarize returns the
arithmetic mean as average, a least element as min, a greatest element
as max, and the element at index floor(n/2) of the ascending-sorted
sequence as median; in particular summarize [5,1,3] yields average 3,
median 3, min 1 and max 5. -/
theorem summarize_nonempty_stats :
    (∀ l : List ℚ, l ≠ [] →
      (summarize l).avg = JsNum.num (l.sum / l.length) ∧
      (∃ m, (summarize l).min = JsNum.num m ∧ m ∈ l ∧ ∀ x ∈ l, m ≤ x) ∧
      (∃ m, (summarize l).max = JsNum.num m ∧ m ∈ l ∧ ∀ x ∈ l, x ≤ m) ∧
      (∀ s : List ℚ, s.Perm l → s.Sorted (· ≤ ·) →
        (summarize l).median = s.get? (l.length / 2))) ∧
    summarize [5, 1, 3] = ⟨JsNum.num 3, some 3, JsNum.num 1, JsNum.num 5⟩ := by
  constructor
  · intro l hl
    obtain ⟨x, xs, rfl⟩ := List.exists_cons_of_ne_nil hl
    refine ⟨?_, ?_, ?_, fun s hp hs => summarize_median_sorted _ s hp hs⟩
    · have hlen : ((x :: xs).length : ℚ) ≠ 0 := by
        exact_mod_cast Nat.cast_ne_zero.mpr (by simp)
      simp only [summarize, foldl_add_eq_sum, zero_add, jsDiv, if_neg hlen]
    · refine ⟨xs.foldl min x, ?_, ?_, ?_⟩
      · simp only [summarize, List.map_cons, List.foldl_cons]
        have h0 : jsMin2 JsNum.posInf (JsNum.num x) = JsNum.num x := rfl
        rw [h0, foldl_jsMin2_num]
      · rcases foldl_min_mem xs x with h | h
        · rw [h]; exact List.mem_cons_self x xs
        · exact List.mem_cons_of_mem x h
      · intro y hy
        rcases List.mem_cons.mp hy with rfl | hy
        · exact (foldl_min_le xs y).1
        · exact (foldl_min_le xs x).2 y hy
    · refine ⟨xs.foldl max x, ?_, ?_, ?_⟩
      · simp only [summarize, List.map_cons, List.foldl_cons]
        have h0 : jsMax2 JsNum.negInf (JsNum.num x) = JsNum.num x := rfl
        rw [h0, foldl_jsMax2_num]
      · rcases foldl_max_mem xs x with h | h
        · rw [h]; exact List.mem_cons_self x xs
        · exact List.mem_cons_of_mem x h
      · intro y hy
        rcases List.mem_cons.mp hy with rfl | hy
        · exact (foldl_max_le xs y).1
        · exact (foldl_max_le xs x).2 y hy
  · norm_num [summarize, jsDiv, jsMin2, jsMax2, List.insertionSort, List.orderedInsert]

/-- Witness for C8 at the concrete input [5,1,3]: the non-emptiness
hypothesis holds there and the average is the arithmetic mean. -/
theorem summarize_nonempty_stats_witness :
    ([5, 1, 3] : List ℚ) ≠ [] ∧
    (summarize [5, 1, 3]).avg = JsNum.num (([5, 1, 3] : List ℚ).sum / ([5, 1, 3] : List ℚ).length) :=
  ⟨by decide, (summarize_nonempty_stats.1 [5, 1, 3] (by decide)).1⟩

/-- C2 counterexample: summarize [1,2,3,4] yields median 3, the element
at index floor(4/2) = 2 of the ascending sort (the upper middle), not
the claimed lower-middle value 2. -/
theorem summarize_even_median_counterexample :
    (summarize [1, 2, 3, 4]).median = some 3 ∧ (summarize [1, 2, 3, 4]).median ≠ some 2 := by
  constructor <;> decide

/-- C2 amended: for every non-empty even-length sequence, summarize
returns as median the element at index n/2 of the ascending-sorted
sequence — the upper of the two middle elements, not the lower; in
particular summarize [1,2,3,4] yields median 3. -/
theorem summarize_even_median_upper :
    (∀ l : List ℚ, l ≠ [] → l.length % 2 = 0 →
      ∀ s : List ℚ, s.Perm l → s.Sorted (· ≤ ·) →
        (summarize l).median = s.get? (l.length / 2) ∧ l.length / 2 = (l.length - 2) / 2 + 1) ∧
    (summarize [1, 2, 3, 4]).median = some 3 := by
  constructor
  · intro l hl he s hp hs
    refine ⟨summarize_median_sorted l s hp hs, ?_⟩
    have hpos : 0 < l.length := List.length_pos.mpr hl
    omega
  · decide

/-- Witness for C2's amended theorem at [1,2,3,4] with the identity
sorted permutation: the hypotheses hold there and the median is the
entry at index 2 (the upper middle). -/
theorem summarize_even_median_upper_witness :
    (summarize [1, 2, 3, 4]).median = ([1, 2, 3, 4] : List ℚ).get? (([1, 2, 3, 4] : List ℚ).length / 2) ∧
    ([1, 2, 3, 4] : List ℚ).length / 2 = (([1, 2, 3, 4] : List ℚ).length - 2) / 2 + 1 :=
  summarize_even_median_upper.1 [1, 2, 3, 4] (by decide) (by decide)
    [1, 2, 3, 4] (List.Perm.refl _) (by decide)

/-- C3 counterexample: summarize on the empty sequence does not fail
with EmptyInput — it returns a summary whose average is NaN and whose
median is undefined. -/
theorem summarize_empty_counterexample :
    (summarize []).avg = JsNum.nan ∧ (summarize []).median = none := ⟨rfl, rfl⟩

/-- C3 amended: summarize applied to the empty sequence does not raise
any error; it returns average NaN, undefined median, min +Infinity and
max -Infinity, exactly the degenerate values of the JS arithmetic. -/
theorem summarize_empty_value :
    summarize [] = ⟨JsNum.nan, none, JsNum.posInf, JsNum.negInf⟩ := rfl

/-- C10: a store request whose text field is missing or is the empty
string is rejected by the peer with a 400 error response, no record is
created and no identifier is consumed — the state is unchanged. -/
theorem storePost_rejects_empty :
    ∀ (st : ServerState) (ts : Nat),
      storePost st none ts = (st, ⟨400, ServerBody.errorBody "Text field is required"⟩) ∧
      storePost st (some "") ts = (st, ⟨400, ServerBody.errorBody "Text field is required"⟩) :=
  fun _ _ => ⟨rfl, rfl⟩

/-- C4 counterexample: the transport layer resolves non-success
responses instead of failing — retrieving a missing identifier resolves
with the peer's 404 error body (no NotFound failure is raised), and
storing an invalid payload resolves with the peer's 400 error body (no
TransportError is raised on a non-success status). -/
theorem client_error_status_counterexample :
    clientRetrieve [] (some 0) = Except.ok (ServerBody.errorBody "String not found") ∧
    (clientStore [] (some "") 0).2 = Except.ok (ServerBody.errorBody "Text field is required") :=
  ⟨rfl, rfl⟩

/-- C4 amended: store and retrieve fail only on a connection failure,
which is surfaced to the caller immediately from the single attempt (no
retry); every HTTP response — success or not, including the peer's
not-found reply and its validation-error reply — is resolved with the
parsed response body, with no status-based TransportError/NotFound
classification at all. -/
theorem makeRequest_error_classification :
    (∀ m p d, makeRequest m p d NetOutcome.connFailure = Except.error ClientError.connError) ∧
    (∀ m p d s b, makeRequest m p d (NetOutcome.response s b) = Except.ok b) ∧
    (∀ (st : ServerState) (i : Nat), st.get? i = none →
      clientRetrieve st (some i) = Except.ok (ServerBody.errorBody "String not found")) ∧
    (∀ (st : ServerState) (ts : Nat),
      clientStore st (some "") ts = (st, Except.ok (ServerBody.errorBody "Text field is required"))) := by
  refine ⟨fun _ _ _ => rfl, fun _ _ _ _ _ => rfl, ?_, fun _ _ => rfl⟩
  intro st i h
  simp only [clientRetrieve, serverGet, makeRequest, h]

/-- Witness for C4's amended theorem: on the empty peer identifier 3 is
absent and the retrieve call resolves with the 404 error body. -/
theorem makeRequest_error_classification_witness :
    ([] : ServerState).get? 3 = none ∧
    clientRetrieve [] (some 3) = Except.ok (ServerBody.errorBody "String not found") :=
  ⟨rfl, makeRequest_error_classification.2.2.1 [] 3 rfl⟩

/-! ## Sequences of store operations -/

/-- The records a run of successful stores appends, with ids counting up
from `base`. -/
def mkRecs (base : Nat) : List (String × Nat) → List StoredString
  | [] => []
  | (t, ts) :: rest => ⟨base, t, ts⟩ :: mkRecs (base + 1) rest

/-- A sequence of store requests applied to the peer, threading the
state (each pair is the text and the timestamp of one request). -/
def applyStores (reqs : List (String × Nat)) (st : ServerState) : ServerState :=
  reqs.foldl (fun s r => (storePost s (some r.1) r.2).1) st

/-- A run of valid stores appends exactly the records with consecutive
ids starting at the current length. -/
lemma applyStores_eq (reqs : List (String × Nat)) (st : ServerState)
    (hval : ∀ r ∈ reqs, r.1 ≠ "") :
    applyStores reqs st = st ++ mkRecs st.length reqs := by
  induction reqs generalizing st with
  | nil => simp [applyStores, mkRecs]
  | cons r rest ih =>
    obtain ⟨t, ts⟩ := r
    have ht : t ≠ "" := hval (t, ts) (List.mem_cons_self _ _)
    have hstep : (storePost st (some t) ts).1 = st ++ [⟨st.length, t, ts⟩] := by
      simp [storePost, ht]
    have hrest : ∀ r ∈ rest, r.1 ≠ "" := fun r hr => hval r (List.mem_cons_of_mem _ hr)
    calc applyStores ((t, ts) :: rest) st
        = applyStores rest (storePost st (some t) ts).1 := rfl
      _ = applyStores rest (st ++ [⟨st.length, t, ts⟩]) := by rw [hstep]
      _ = (st ++ [⟨st.length, t, ts⟩]) ++
            mkRecs (st ++ [(⟨st.length, t, ts⟩ : StoredString)]).length rest := ih _ hrest
      _ = st ++ mkRecs st.length ((t, ts) :: rest) := by
          simp [mkRecs, List.append_assoc]

/-- The ids of the appended records are consecutive from `base`. -/
lemma mkRecs_map_id (reqs : List (String × Nat)) (base : Nat) :
    (mkRecs base reqs).map StoredString.id = List.range' base reqs.length := by
  induction reqs generalizing base with
  | nil => rfl
  | cons r rest ih => obtain ⟨t, ts⟩ := r; simp [mkRecs, List.range', ih (base + 1)]

/-- Indexing into the appended records. -/
lemma mkRecs_get? (reqs : List (String × Nat)) (base i : Nat) :
    (mkRecs base reqs).get? i =
      (reqs.get? i).map fun r => (⟨base + i, r.1, r.2⟩ : StoredString) := by
  induction reqs generalizing base i with
  | nil => simp [mkRecs]
  | cons r rest ih =>
    obtain ⟨t, ts⟩ := r
    cases i with
    | zero => simp [mkRecs]
    | succ j =>
      have := ih (base + 1) j
      simp only [mkRecs, List.get?_cons_succ, this]
      have harith : base + 1 + j = base + (j + 1) := by omega
      rw [harith]

/-- C7: starting from an empty peer, a sequence of successful stores
assigns the consecutive identifiers 0,1,2,… in insertion order with no
reuse and no gaps; every single store either leaves the state unchanged
or appends exactly one record at the end (append-only); and retrieving
an assigned identifier returns exactly the text stored under it. -/
theorem store_ids_consecutive_append_only :
    ∀ reqs : List (String × Nat), (∀ r ∈ reqs, r.1 ≠ "") →
      ((applyStores reqs []).map StoredString.id = List.range reqs.length) ∧
      (∀ (st : ServerState) (t : String) (ts : Nat),
        (storePost st (some t) ts).1 = st ∨
        (storePost st (some t) ts).1 = st ++ [⟨st.length, t, ts⟩]) ∧
      (∀ (i : Nat) (t : String) (ts : Nat), reqs.get? i = some (t, ts) →
        serverGet (applyStores reqs []) (some i) = ⟨200, ServerBody.record i t ts⟩) := by
  intro reqs hval
  have happ : applyStores reqs [] = mkRecs 0 reqs := by
    simpa using applyStores_eq reqs [] hval
  refine ⟨?_, ?_, ?_⟩
  · rw [happ, mkRecs_map_id, List.range_eq_range']
  · intro st t ts
    by_cases ht : t = ""
    · exact Or.inl (by simp [storePost, ht])
    · exact Or.inr (by simp [storePost, ht])
  · intro i t ts hreq
    have hget : (mkRecs 0 reqs).get? i = some ⟨i, t, ts⟩ := by
      rw [mkRecs_get?, hreq]; simp
    simp only [serverGet, happ, hget]

/-- Witness for C7 at a concrete run of two valid stores: the assigned
ids are [0, 1]. -/
theorem store_ids_consecutive_append_only_witness :
    (applyStores [("a", 5), ("b", 7)] []).map StoredString.id =
      List.range [("a", 5), ("b", 7)].length :=
  (store_ids_consecutive_append_only [("a", 5), ("b", 7)] (by decide)).1

/-! ## RSA chunking lemmas -/

/-- The number of chunks is the ceiling division of the length by the
capacity. -/
lemma rsaChunks_length (bs : List Byte) :
    (rsaChunks bs).length = (bs.length + maxChunkSize - 1) / maxChunkSize := by
  induction bs using rsaChunks.induct with
  | case1 => simp [rsaChunks, maxChunkSize]
  | case2 bs hnil ih =>
    rw [rsaChunks, dif_neg hnil]
    have hpos : 0 < bs.length := List.length_pos.mpr hnil
    simp only [List.length_cons, ih, List.length_drop]
    simp only [maxChunkSize] at *
    omega

/-- Concatenating the chunks gives back the original byte list. -/
lemma rsaChunks_flatten (bs : List Byte) : (rsaChunks bs).flatten = bs := by
  induction bs using rsaChunks.induct with
  | case1 => simp [rsaChunks]
  | case2 bs hnil ih =>
    rw [rsaChunks, dif_neg hnil]
    simp only [List.flatten_cons, ih, List.take_append_drop]

/-- Every chunk respects the per-block capacity. -/
lemma rsaChunks_chunk_le (bs : List Byte) :
    ∀ c ∈ rsaChunks bs, c.length ≤ maxChunkSize := by
  induction bs using rsaChunks.induct with
  | case1 => simp [rsaChunks]
  | case2 bs hnil ih =>
    rw [rsaChunks, dif_neg hnil]
    intro c hc
    rcases List.mem_cons.mp hc with rfl | hc
    · simp only [List.length_take]
      exact min_le_left maxChunkSize bs.length
    · exact ih c hc

/-- Encrypting a list of capacity-respecting chunks succeeds blockwise. -/
lemma encryptChunkList_eq (keyId : Nat) (cs : List (List Byte))
    (hle : ∀ c ∈ cs, c.length ≤ maxChunkSize) :
    encryptChunkList keyId cs = some (cs.map fun c => (⟨keyId, c⟩ : RsaBlock)) := by
  induction cs with
  | nil => rfl
  | cons c rest ih =>
    have hc : c.length ≤ maxChunkSize := hle c (List.mem_cons_self _ _)
    have hrest := ih fun d hd => hle d (List.mem_cons_of_mem _ hd)
    simp [encryptChunkList, publicEncrypt, hc, hrest]

/-- Decrypting under the matching key recovers every chunk. -/
lemma decryptChunkList_eq (keyId : Nat) (cs : List (List Byte)) :
    decryptChunkList keyId ((cs.map fun c => (⟨keyId, c⟩ : RsaBlock))) = some cs := by
  induction cs with
  | nil => rfl
  | cons c rest ih => simp [decryptChunkList, privateDecrypt, ih]

/-- C5: for the asymmetric scheme, encrypting an L-byte plaintext
produces exactly ceil(L / maxChunkSize) chunks, with maxChunkSize = 190
(the 2048-bit OAEP capacity, well under 256); the chunk boundaries are a
deterministic function of the plaintext alone; and decrypt concatenates
the independently decrypted chunks in original order, reconstructing
exactly the L original bytes. -/
theorem rsa_chunking_correct :
    maxChunkSize = 190 ∧ maxChunkSize < 256 ∧
    ∀ (keyId : Nat) (pt : List Byte),
      (encryptRSA keyId pt).map RsaEnvelope.chunkCount = some (pt.length ⌈/⌉ maxChunkSize) ∧
      (encryptRSA keyId pt).map (fun env => env.encrypted.map RsaBlock.blockData) =
        some (rsaChunks pt) ∧
      ((encryptRSA keyId pt).bind fun env => decryptRSA keyId env) = some pt := by
  refine ⟨rfl, by norm_num [maxChunkSize], ?_⟩
  intro keyId pt
  have hle := rsaChunks_chunk_le pt
  have henc := encryptChunkList_eq keyId (rsaChunks pt) hle
  have hdec := decryptChunkList_eq keyId (rsaChunks pt)
  refine ⟨?_, ?_, ?_⟩
  · simp [encryptRSA, henc, Nat.ceilDiv_eq_add_pred_div, rsaChunks_length]
  · have hcmp : (RsaBlock.blockData ∘ fun c => (⟨keyId, c⟩ : RsaBlock)) = id := rfl
    simp [encryptRSA, henc, List.map_map, hcmp]
  · simp [encryptRSA, henc, decryptRSA, hdec, rsaChunks_flatten]

/-! ## Symmetric cipher lemmas -/

/-- Stream decryption inverts stream encryption position by position. -/
lemma streamDec_streamEnc (ks : Nat → Byte) (pt : List Byte) :
    ∀ i, streamDec ks i (streamEnc ks i pt) = pt := by
  induction pt with
  | nil => intro i; rfl
  | cons b rest ih =>
    intro i
    simp only [streamEnc, streamDec, add_sub_cancel_right, ih (i + 1)]

/-- Casting byte values into the hash field is injective. -/
lemma byteCast_inj (a b : Byte) (h : ((a.val : ZMod macMod)) = (b.val : ZMod macMod)) :
    a = b := by
  have h1 : a.val < macMod := lt_trans a.isLt (by norm_num [macMod])
  have h2 : b.val < macMod := lt_trans b.isLt (by norm_num [macMod])
  have hv := congrArg ZMod.val h
  rw [ZMod.val_cast_of_lt h1, ZMod.val_cast_of_lt h2] at hv
  exact Fin.ext hv

/-- Changing any single byte of a list changes its polynomial hash. -/
lemma polyHash_set_ne (l : List Byte) :
    ∀ (i : Nat) (h : i < l.length) (b : Byte), b ≠ l.get ⟨i, h⟩ →
      polyHash (l.set i b) ≠ polyHash l := by
  induction l with
  | nil => intro i h; exact absurd h (by simp)
  | cons x xs ih =>
    intro i h b hb heq
    cases i with
    | zero =>
      simp only [List.set, polyHash] at heq
      have hx : ((b.val : ZMod macMod)) + 1 = ((x.val : ZMod macMod)) + 1 :=
        add_right_cancel heq
      exact hb (byteCast_inj b x (add_right_cancel hx))
    | succ j =>
      simp only [List.set, polyHash] at heq
      have h1 : (257 : ZMod macMod) * polyHash (xs.set j b) = 257 * polyHash xs :=
        add_left_cancel heq
      have h2 : polyHash (xs.set j b) = polyHash xs :=
        mul_left_cancel₀ (by decide) h1
      have hj : j < xs.length := by simpa using h
      exact ih j hj b (by simpa using hb) h2

/-- The serialized tags of two distinct authentication values differ. -/
lemma tagBytes_inj (m1 m2 : ZMod macMod) (h : tagBytes m1 = tagBytes m2) : m1 = m2 := by
  have hf := List.ofFn_inj.mp h
  have h0 := congrFun hf 0
  have h1 := congrFun hf 1
  simp only [Fin.mk.injEq, Fin.val_zero, Fin.val_one, pow_zero, pow_one, Nat.div_one] at h0 h1
  have hm1 : m1.val < 65536 := lt_trans (ZMod.val_lt m1) (by norm_num [macMod])
  have hm2 : m2.val < 65536 := lt_trans (ZMod.val_lt m2) (by norm_num [macMod])
  exact ZMod.val_injective macMod (by omega)

/-- Two authentication values over ciphertexts with different polynomial
hashes differ. -/
lemma macVal_polyHash_cancel (s : Nat) (key nonce ct1 ct2 : List Byte)
    (h : macVal s key nonce ct1 = macVal s key nonce ct2) :
    polyHash ct1 = polyHash ct2 := by
  unfold macVal at h
  exact add_right_cancel (add_right_cancel (add_right_cancel h))

/-- Encryption under correctly sized key material succeeds and produces
the enciphered stream with its tag. -/
lemma aeadEncrypt_ok (s nl : Nat) (key nonce pt : List Byte) (hk : key.length = 32)
    (hn : nonce.length = nl) :
    aeadEncrypt s nl key nonce pt = Except.ok
      ⟨streamEnc (keystream s key nonce) 0 pt, nonce,
       tagBytes (macVal s key nonce (streamEnc (keystream s key nonce) 0 pt))⟩ := by
  simp [aeadEncrypt, hk, hn]

/-- Decrypting an untampered envelope returns the plaintext. -/
lemma aeadDecrypt_roundTrip (s nl : Nat) (key nonce pt : List Byte)
    (hk : key.length = 32) (hn : nonce.length = nl) :
    aeadDecrypt s nl key
      ⟨streamEnc (keystream s key nonce) 0 pt, nonce,
       tagBytes (macVal s key nonce (streamEnc (keystream s key nonce) 0 pt))⟩ =
      Except.ok pt := by
  simp [aeadDecrypt, hk, hn, streamDec_streamEnc]

/-- Flipping a ciphertext byte makes tag verification fail. -/
lemma aead_tamper_ct (s nl : Nat) (key nonce pt : List Byte) (hk : key.length = 32)
    (hn : nonce.length = nl) (i : Nat)
    (hi : i < (streamEnc (keystream s key nonce) 0 pt).length) (b : Byte)
    (hb : b ≠ (streamEnc (keystream s key nonce) 0 pt).get ⟨i, hi⟩) :
    aeadDecrypt s nl key
      ⟨(streamEnc (keystream s key nonce) 0 pt).set i b, nonce,
       tagBytes (macVal s key nonce (streamEnc (keystream s key nonce) 0 pt))⟩ =
      Except.error CryptoError.authenticationFailure := by
  have hne : tagBytes (macVal s key nonce (streamEnc (keystream s key nonce) 0 pt)) ≠
      tagBytes (macVal s key nonce ((streamEnc (keystream s key nonce) 0 pt).set i b)) := by
    intro heq
    have hmac := tagBytes_inj _ _ heq
    have hph := macVal_polyHash_cancel s key nonce _ _ hmac
    exact polyHash_set_ne _ i hi b hb hph.symm
  simp only [aeadDecrypt]
  rw [if_pos ⟨hk, hn⟩, if_neg hne]

/-- Flipping a tag byte makes tag verification fail. -/
lemma aead_tamper_tag (s nl : Nat) (key nonce ct : List Byte) (hk : key.length = 32)
    (hn : nonce.length = nl) (i : Nat)
    (hi : i < (tagBytes (macVal s key nonce ct)).length) (b : Byte)
    (hb : b ≠ (tagBytes (macVal s key nonce ct)).get ⟨i, hi⟩) :
    aeadDecrypt s nl key ⟨ct, nonce, (tagBytes (macVal s key nonce ct)).set i b⟩ =
      Except.error CryptoError.authenticationFailure := by
  have hilen : i < (tagBytes (macVal s key nonce ct)).length := hi
  have hne : (tagBytes (macVal s key nonce ct)).set i b ≠
      tagBytes (macVal s key nonce ct) := by
    intro heq
    have hq := congrArg (fun l => l[i]?) heq
    simp only [List.getElem?_set_eq_of_lt b hilen] at hq
    rw [List.getElem?_eq_getElem hilen] at hq
    have hbval : b = (tagBytes (macVal s key nonce ct)).get ⟨i, hilen⟩ := by
      have := Option.some.inj hq
      simpa [List.get_eq_getElem] using this
    exact hb hbval
  simp only [aeadDecrypt]
  rw [if_pos ⟨hk, hn⟩, if_neg hne]

/-- Tampering with either the ciphertext or the tag of any envelope the
AEAD core produced makes decryption fail with AuthenticationFailure. -/
lemma aead_tamper_all (s nl : Nat) (key nonce pt : List Byte) (env : SymEnvelope)
    (hk : key.length = 32) (hn : nonce.length = nl)
    (henc : aeadEncrypt s nl key nonce pt = Except.ok env) :
    (∀ (i : Nat) (h : i < env.encrypted.length) (b : Byte), b ≠ env.encrypted.get ⟨i, h⟩ →
      aeadDecrypt s nl key ⟨env.encrypted.set i b, env.iv, env.authTag⟩ =
        Except.error CryptoError.authenticationFailure) ∧
    (∀ (i : Nat) (h : i < env.authTag.length) (b : Byte), b ≠ env.authTag.get ⟨i, h⟩ →
      aeadDecrypt s nl key ⟨env.encrypted, env.iv, env.authTag.set i b⟩ =
        Except.error CryptoError.authenticationFailure) := by
  rw [aeadEncrypt_ok s nl key nonce pt hk hn] at henc
  obtain rfl := (Except.ok.inj henc).symm
  constructor
  · intro i h b hb
    exact aead_tamper_ct s nl key nonce pt hk hn i h b hb
  · intro i h b hb
    exact aead_tamper_tag s nl key nonce
      (streamEnc (keystream s key nonce) 0 pt) hk hn i h b hb

/-- C1: for each cipher strategy — AES-256-GCM and ChaCha20-Poly1305
with a correctly sized 32-byte key and their 16- and 12-byte nonces, and
RSA-2048-OAEP under a matched key pair — decrypt(encrypt(p, k), k) = p
for every plaintext p of any length, from the empty sequence up to
arbitrarily many times the asymmetric chunk capacity. -/
theorem cipher_round_trip :
    (∀ key nonce pt : List Byte, key.length = 32 → nonce.length = 16 →
      (encryptAES key nonce pt).bind (decryptAES key) = Except.ok pt) ∧
    (∀ key nonce pt : List Byte, key.length = 32 → nonce.length = 12 →
      (encryptChaCha20 key nonce pt).bind (decryptChaCha20 key) = Except.ok pt) ∧
    (∀ (keyId : Nat) (pt : List Byte),
      (encryptRSA keyId pt).bind (decryptRSA keyId) = some pt) := by
  refine ⟨?_, ?_, ?_⟩
  · intro key nonce pt hk hn
    rw [encryptAES, aeadEncrypt_ok 0 16 key nonce pt hk hn]
    exact aeadDecrypt_roundTrip 0 16 key nonce pt hk hn
  · intro key nonce pt hk hn
    rw [encryptChaCha20, aeadEncrypt_ok 1 12 key nonce pt hk hn]
    exact aeadDecrypt_roundTrip 1 12 key nonce pt hk hn
  · intro keyId pt
    have henc := encryptChunkList_eq keyId (rsaChunks pt) (rsaChunks_chunk_le pt)
    simp [encryptRSA, henc, decryptRSA, decryptChunkList_eq, rsaChunks_flatten]

/-- Witness for C1 at concrete keys, nonces and the plaintext [1,2,3]:
the key-size and nonce-size hypotheses hold and all three schemes round
trip. -/
theorem cipher_round_trip_witness :
    (List.replicate 32 (0 : Byte)).length = 32 ∧
    (encryptAES (List.replicate 32 0) (List.replicate 16 0) [1, 2, 3]).bind
      (decryptAES (List.replicate 32 0)) = Except.ok [1, 2, 3] ∧
    (encryptChaCha20 (List.replicate 32 0) (List.replicate 12 0) [1, 2, 3]).bind
      (decryptChaCha20 (List.replicate 32 0)) = Except.ok [1, 2, 3] ∧
    (encryptRSA 7 [1, 2, 3]).bind (decryptRSA 7) = some [1, 2, 3] :=
  ⟨by decide, cipher_round_trip.1 _ _ _ (by decide) (by decide),
   cipher_round_trip.2.1 _ _ _ (by decide) (by decide),
   cipher_round_trip.2.2 7 [1, 2, 3]⟩

/-- C6: for every envelope produced by a symmetric-scheme encrypt under
a correctly sized key and nonce, changing any byte of the ciphertext or
of the authentication tag to any other value makes decrypt fail with
AuthenticationFailure — a tampered envelope is never silently decrypted
to a wrong plaintext. -/
theorem symmetric_tamper_detection :
    (∀ (key nonce pt : List Byte) (env : SymEnvelope), key.length = 32 → nonce.length = 16 →
      encryptAES key nonce pt = Except.ok env →
      (∀ (i : Nat) (h : i < env.encrypted.length) (b : Byte), b ≠ env.encrypted.get ⟨i, h⟩ →
        decryptAES key ⟨env.encrypted.set i b, env.iv, env.authTag⟩ =
          Except.error CryptoError.authenticationFailure) ∧
      (∀ (i : Nat) (h : i < env.authTag.length) (b : Byte), b ≠ env.authTag.get ⟨i, h⟩ →
        decryptAES key ⟨env.encrypted, env.iv, env.authTag.set i b⟩ =
          Except.error CryptoError.authenticationFailure)) ∧
    (∀ (key nonce pt : List Byte) (env : SymEnvelope), key.length = 32 → nonce.length = 12 →
      encryptChaCha20 key nonce pt = Except.ok env →
      (∀ (i : Nat) (h : i < env.encrypted.length) (b : Byte), b ≠ env.encrypted.get ⟨i, h⟩ →
        decryptChaCha20 key ⟨env.encrypted.set i b, env.iv, env.authTag⟩ =
          Except.error CryptoError.authenticationFailure) ∧
      (∀ (i : Nat) (h : i < env.authTag.length) (b : Byte), b ≠ env.authTag.get ⟨i, h⟩ →
        decryptChaCha20 key ⟨env.encrypted, env.iv, env.authTag.set i b⟩ =
          Except.error CryptoError.authenticationFailure)) := by
  constructor
  · intro key nonce pt env hk hn henc
    exact aead_tamper_all 0 16 key nonce pt env hk hn henc
  · intro key nonce pt env hk hn henc
    exact aead_tamper_all 1 12 key nonce pt env hk hn henc

/-- Witness for C6 at concrete envelopes: the AES envelope for plaintext
[1] under the all-zero key with its ciphertext byte flipped from 1 to 6,
and the ChaCha20 envelope for [1] with its first tag byte flipped to 5;
both decrypts fail with AuthenticationFailure. -/
theorem symmetric_tamper_detection_witness :
    decryptAES (List.replicate 32 0)
      ⟨([1] : List Byte).set 0 6, List.replicate 16 0,
       [2, 0, 0, 0, 0, 0, 0, 0, 0, 0, 0, 0, 0, 0, 0, 0]⟩ =
      Except.error CryptoError.authenticationFailure ∧
    decryptChaCha20 (List.replicate 32 0)
      ⟨[12], List.replicate 12 0,
       ([174, 15, 0, 0, 0, 0, 0, 0, 0, 0, 0, 0, 0, 0, 0, 0] : List Byte).set 0 5⟩ =
      Except.error CryptoError.authenticationFailure :=
  ⟨(symmetric_tamper_detection.1 (List.replicate 32 0) (List.replicate 16 0) [1]
      ⟨[1], List.replicate 16 0, [2, 0, 0, 0, 0, 0, 0, 0, 0, 0, 0, 0, 0, 0, 0, 0]⟩
      (by decide) (by decide) (by decide)).1 0 (by decide) 6 (by decide),
   (symmetric_tamper_detection.2 (List.replicate 32 0) (List.replicate 12 0) [1]
      ⟨[12], List.replicate 12 0, [174, 15, 0, 0, 0, 0, 0, 0, 0, 0, 0, 0, 0, 0, 0, 0]⟩
      (by decide) (by decide) (by decide)).2 0 (by decide) 5 (by decide)⟩

/-! ## Benchmark driver lemmas -/

/-- An unencrypted iteration with a non-empty payload appends one record
and captures the identifier the peer assigned. -/
lemma benchIter_none_eq {Env : Type} (strf : Env → String) (prs : String → Option Env)
    (text : String) (htext : text ≠ "") (i : Nat) (st : ServerState) :
    @benchIter Env none none strf prs text i st =
      some (st ++ [⟨st.length, text, i⟩], some st.length) := by
  simp [benchIter, clientStore, storePost, htext, makeRequest]

/-- An encrypted iteration whose serialized envelope is non-empty and
whose parse-then-decrypt round trips appends one record and captures the
assigned identifier. -/
lemma benchIter_some_eq {Env : Type} (f : String → Env) (g : Env → Option String)
    (strf : Env → String) (prs : String → Option Env) (text : String)
    (hne : strf (f text) ≠ "") (hrt : (prs (strf (f text))).bind g = some text)
    (i : Nat) (st : ServerState) :
    benchIter (some f) (some g) strf prs text i st =
      some (st ++ [⟨st.length, strf (f text), i⟩], some st.length) := by
  cases hprs : prs (strf (f text)) with
  | none => rw [hprs] at hrt; simp at hrt
  | some env =>
    rw [hprs] at hrt
    simp only [Option.some_bind] at hrt
    simp [benchIter, clientStore, storePost, hne, makeRequest, clientRetrieve,
          serverGet, List.getElem?_concat_length, hprs, hrt]

/-- When every iteration succeeds appending one record, the loop runs
all n iterations, collects n durations and captures the consecutive
identifiers starting at the current store length. -/
lemma runBenchmark_eq {Env : Type} (encryptFn : Option (String → Env))
    (decryptFn : Option (Env → Option String)) (strf : Env → String)
    (prs : String → Option Env) (text d : String) (timeOf : Nat → ℚ)
    (hstep : ∀ (i : Nat) (st : ServerState),
      benchIter encryptFn decryptFn strf prs text i st =
        some (st ++ [⟨st.length, d, i⟩], some st.length)) :
    ∀ (n i : Nat) (st : ServerState),
      runBenchmark encryptFn decryptFn strf prs text timeOf n i st =
        some (st ++ mkRecs st.length ((List.range' i n).map fun j => (d, j)),
              (List.range' i n).map timeOf,
              (List.range' st.length n).map some) := by
  intro n
  induction n with
  | zero => intro i st; simp [runBenchmark, mkRecs]
  | succ m ih =>
    intro i st
    rw [runBenchmark, hstep i st]
    dsimp only
    rw [ih (i + 1) (st ++ [(⟨st.length, d, i⟩ : StoredString)])]
    simp [List.range'_succ, mkRecs, List.append_assoc]

/-- C9: for any strategy (or none) the benchmark runner executes exactly
n strictly sequential iterations — each one encrypting (when a strategy
is present), storing the payload, capturing the returned identifier,
retrieving by that identifier, and (when a strategy is present)
decrypting the retrieved text and verifying it equals the original
plaintext — and produces exactly n duration results, one per iteration,
with the captured identifiers consecutive from the peer's current
length (so a fresh peer and n = 3 give the strictly increasing
identifiers 0, 1, 2); the default iteration count when none is given is
100. -/
theorem benchmark_runner_sequential :
    (∀ (Env : Type) (strf : Env → String) (prs : String → Option Env)
      (text : String) (timeOf : Nat → ℚ) (n i : Nat) (st : ServerState), text ≠ "" →
      @runBenchmark Env none none strf prs text timeOf n i st =
        some (st ++ mkRecs st.length ((List.range' i n).map fun j => (text, j)),
              (List.range' i n).map timeOf,
              (List.range' st.length n).map some)) ∧
    (∀ (Env : Type) (f : String → Env) (g : Env → Option String)
      (strf : Env → String) (prs : String → Option Env) (text : String)
      (timeOf : Nat → ℚ) (n i : Nat) (st : ServerState),
      strf (f text) ≠ "" → (prs (strf (f text))).bind g = some text →
      runBenchmark (some f) (some g) strf prs text timeOf n i st =
        some (st ++ mkRecs st.length ((List.range' i n).map fun j => (strf (f text), j)),
              (List.range' i n).map timeOf,
              (List.range' st.length n).map some)) ∧
    defaultIterations = 100 ∧
    (∀ (Env : Type) (encryptFn : Option (String → Env))
      (decryptFn : Option (Env → Option String)) (strf : Env → String)
      (prs : String → Option Env) (text : String) (timeOf : Nat → ℚ) (st : ServerState),
      benchmark encryptFn decryptFn strf prs text timeOf none st =
        runBenchmark encryptFn decryptFn strf prs text timeOf 100 0 st) := by
  refine ⟨?_, ?_, rfl, fun _ _ _ _ _ _ _ _ => rfl⟩
  · intro Env strf prs text timeOf n i st htext
    exact runBenchmark_eq none none strf prs text text timeOf
      (benchIter_none_eq strf prs text htext) n i st
  · intro Env f g strf prs text timeOf n i st hne hrt
    exact runBenchmark_eq (some f) (some g) strf prs text (strf (f text)) timeOf
      (benchIter_some_eq f g strf prs text hne hrt) n i st

/-- Witness for C9: a concrete symmetric-style strategy (encrypt to the
fixed non-empty envelope string "CT", decrypt it back to the plaintext
"hi") run for 3 iterations against a fresh peer produces exactly 3
duration results and the strictly increasing identifiers 0, 1, 2. -/
theorem benchmark_runner_sequential_witness :
    runBenchmark (some fun _ => "CT") (some fun e => if e = "CT" then some "hi" else none)
      (fun e => e) (fun s => some s) "hi" (fun _ => (1 : ℚ)) 3 0 [] =
      some (([] : ServerState) ++ mkRecs 0 ((List.range' 0 3).map fun j => ("CT", j)),
            (List.range' 0 3).map (fun _ => (1 : ℚ)),
            (List.range' 0 3).map some) :=
  benchmark_runner_sequential.2.1 String (fun _ => "CT")
    (fun e => if e = "CT" then some "hi" else none) (fun e => e) (fun s => some s)
    "hi" (fun _ => (1 : ℚ)) 3 0 [] (by decide) (by decide)
